import Mathlib

/-!
Verification development for `parse_scanned_bt.py` of the OEDict repository.

The script segments a line-oriented transcript of the Bosworth–Toller
dictionary into entry blocks (`read_entries`), extracts and normalizes
headwords (`extract_headwords`, `remove_trailing_part_refs`,
`unaccented_letters`) and groups entries by a canonical key
(`collect_entries`).  Strings are embedded as `List Char`; the transcript is
read with ASCII encoding, so the ASCII fragment of Python's string
operations is the relevant one.
-/

set_option maxHeartbeats 1000000

/-- A string of the Python program, as a list of characters. -/
abbrev Str := List Char

/-- Equality of `Except` values is decidable when it is on both sides. -/
instance {ε α : Type} [DecidableEq ε] [DecidableEq α] :
    DecidableEq (Except ε α) := fun a b =>
  match a, b with
  | Except.error e, Except.error f =>
    if h : e = f then isTrue (by rw [h])
    else isFalse (fun hh => h (by injection hh))
  | Except.error _, Except.ok _ => isFalse (fun hh => by injection hh)
  | Except.ok _, Except.error _ => isFalse (fun hh => by injection hh)
  | Except.ok x, Except.ok y =>
    if h : x = y then isTrue (by rw [h])
    else isFalse (fun hh => h (by injection hh))

/-- The characters Python's `str.strip()` removes from the ends of an ASCII
string (space, tab, newline, carriage return, vertical tab, form feed). -/
def isPySpace (c : Char) : Bool :=
  c = ' ' || c = '\t' || c = '\n' || c = '\r' || c = '\x0b' || c = '\x0c'

/-- Drop leading whitespace. -/
def ldrop (l : Str) : Str := l.dropWhile isPySpace

/-- Drop trailing whitespace. -/
def rdrop (l : Str) : Str := (l.reverse.dropWhile isPySpace).reverse

/-- Python `str.strip()`: drop whitespace from both ends. -/
def trim (l : Str) : Str := rdrop (ldrop l)

/-- The bold-open marker `<B>` that signals the start of an entry. -/
def boldMark : Str := "<B>".toList

/-- The bold-close marker `</B>`. -/
def boldClose : Str := "</B>".toList

/-- The page-header marker. -/
def headerMark : Str := "<HEADER>".toList

/-- The page-number marker. -/
def pageNumMark : Str := "<PAGE NUM".toList

/-- The letter-header marker. -/
def letterHeaderMark : Str := "<letterheader".toList

/-- `NOT_AN_ENTRY` from the source: line numbers that do not start an entry,
even though they may begin with a bolded phrase. -/
def NOT_AN_ENTRY : List Nat :=
  [326, 330, 332, 692, 1845, 6016, 17859, 24005, 49675, 97466, 110519,
   118045, 119186, 126386]

/-- `ALWAYS_AN_ENTRY` from the source: line numbers that do start an entry,
even though whether they do or not is ambiguous. -/
def ALWAYS_AN_ENTRY : List Nat :=
  [12470, 17858, 60157, 60555, 60820, 75155, 75330, 77825, 83439, 84266,
   94282, 97998, 102650, 102655, 102810, 102822, 102895, 103897, 113712,
   113834, 119068, 123676]

/-- State of the line-reading state machine (`class S` in the source). -/
inductive S
  | INTRO
  | ENTRY
  | BREAK
  | PAGE_BREAK
deriving DecidableEq

/-- The loop state of `read_entries`: current machine state, the in-progress
entry accumulator (`partial` in the source), the emitted entries, and the
number of lines consumed so far. -/
structure Config where
  state : S
  acc : Str
  entries : List Str
  n : Nat
deriving DecidableEq

/-- The `AssertionError`s `read_entries` can raise, with the data the
corresponding Python assert message carries. -/
inductive SegError
  | boldMidEntry (state : S) (n : Nat)
  | introAccNonempty (acc : Str) (n : Nat)
  | headerOutsideBreak (state : S) (n : Nat)
  | contNoAcc (n : Nat)
  | contBadState (state : S) (n : Nat)
  | contBoldLine (n : Nat)
deriving DecidableEq

/-- One iteration of the `for line in in_file` loop of `read_entries`,
mirroring the source branch for branch. -/
def step (c : Config) (raw : Str) : Except SegError Config :=
  if boldMark.isPrefixOf (trim raw) ∧ (c.n + 1) ∉ NOT_AN_ENTRY then
    if c.state = S.BREAK ∨ c.state = S.PAGE_BREAK ∨ c.state = S.INTRO ∨
        ((c.n + 1) ∈ ALWAYS_AN_ENTRY ∧ c.state = S.ENTRY) then
      if c.state = S.INTRO ∧ c.acc ≠ [] then
        Except.error (SegError.introAccNonempty c.acc (c.n + 1))
      else if c.acc = [] then
        Except.ok ⟨S.ENTRY, trim raw, c.entries, c.n + 1⟩
      else
        Except.ok ⟨S.ENTRY, trim raw, c.entries ++ [c.acc], c.n + 1⟩
    else Except.error (SegError.boldMidEntry c.state (c.n + 1))
  else if c.state = S.INTRO then
    Except.ok ⟨S.INTRO, c.acc, c.entries, c.n + 1⟩
  else if trim raw = [] ∧ c.state = S.ENTRY then
    Except.ok ⟨S.BREAK, c.acc, c.entries, c.n + 1⟩
  else if headerMark.isPrefixOf (trim raw) ∨ pageNumMark.isPrefixOf (trim raw) ∨
      letterHeaderMark.isPrefixOf (trim raw) then
    if c.state = S.BREAK ∨ c.state = S.PAGE_BREAK then
      Except.ok ⟨S.PAGE_BREAK, c.acc, c.entries, c.n + 1⟩
    else Except.error (SegError.headerOutsideBreak c.state (c.n + 1))
  else if trim raw = [] ∧ c.state = S.PAGE_BREAK then
    Except.ok ⟨S.PAGE_BREAK, c.acc, c.entries, c.n + 1⟩
  else if c.acc = [] then
    Except.error (SegError.contNoAcc (c.n + 1))
  else if ¬(c.state = S.ENTRY ∨ c.state = S.PAGE_BREAK ∨ c.state = S.BREAK) then
    Except.error (SegError.contBadState c.state (c.n + 1))
  else if ¬((c.n + 1) ∈ NOT_AN_ENTRY ∨ ¬boldMark.isPrefixOf (trim raw)) then
    Except.error (SegError.contBoldLine (c.n + 1))
  else
    Except.ok ⟨S.ENTRY, c.acc ++ trim raw ++ ['\n'], c.entries, c.n + 1⟩

/-- Run the loop of `read_entries` over a list of lines. -/
def runLines (c : Config) : List Str → Except SegError Config
  | [] => Except.ok c
  | l :: ls => (step c l).bind (fun c2 => runLines c2 ls)

/-- The initial loop state of `read_entries`. -/
def initConfig : Config := ⟨S.INTRO, [], [], 0⟩

/-- `read_entries` from the source: maps a list of lines to a list of entry
blocks, raising on any failed assert; at end of input a nonempty
accumulator is emitted as the final entry. -/
def read_entries (ls : List Str) : Except SegError (List Str) :=
  (runLines initConfig ls).map
    (fun c => if c.acc = [] then c.entries else c.entries ++ [c.acc])

/-- Python `s.split(sep)` for a one-character separator: always returns at
least one piece, empty pieces between adjacent separators. -/
def splitOnChar (sep : Char) : Str → List Str
  | [] => [[]]
  | c :: rest =>
    if c = sep then [] :: splitOnChar sep rest
    else
      match splitOnChar sep rest with
      | [] => [[c]]
      | t :: ts => (c :: t) :: ts

/-- Python `str.splitlines()` for newline-only strings: split on each
newline character, with no empty final piece for a trailing newline. -/
def splitlines (s : Str) : List Str :=
  let ps := splitOnChar '\n' s
  if ps.getLast? = some [] then ps.dropLast else ps

/-- One reference marker of the `remove_trailing_part_refs` regular
expression: a nonempty run of the letters i/v/x, a single letter from
a b c d e f o α, or a nonempty run of ASCII digits. -/
def isRefMarker (w : Str) : Bool :=
  (decide (w ≠ []) && w.all (fun c => c = 'i' || c = 'v' || c = 'x')) ||
  (match w with
   | [c] => c = 'a' || c = 'b' || c = 'c' || c = 'd' || c = 'e' || c = 'f' ||
       c = 'o' || c = 'α'
   | _ => false) ||
  (decide (w ≠ []) && w.all Char.isDigit)

/-- Python `sep.join(tokens)` for a one-character separator. -/
def joinWith (sep : Char) : List Str → Str
  | [] => []
  | [t] => t
  | t :: ts => t ++ sep :: joinWith sep ts

/-- `remove_trailing_part_refs` from the source:
`re.sub('((^| )([ivx]+|[abcdefoα]|[0-9]+))+$', '', s.strip())`.
The regex separator is start-of-string or a single space, and marker
alternatives contain no space, so the leftmost match removes exactly the
longest run of trailing space-separated marker tokens — the whole string
when every space-separated token is a marker. -/
def remove_trailing_part_refs (s : Str) : Str :=
  if (splitOnChar ' ' (trim s)).all (fun w => isRefMarker w) then []
  else
    joinWith ' '
      (((splitOnChar ' ' (trim s)).reverse.dropWhile
        (fun w => isRefMarker w)).reverse)

/-- `unicodedata.normalize('NFKD', s)`.  Every character this development
feeds it (ASCII and the Greek letter α) is NFKD-invariant, so on its domain
of use the transform is the identity. -/
def nfkd (s : Str) : Str := s

/-- Python's regex class `\w` restricted to the characters that occur here:
ASCII alphanumerics, the underscore, and the Greek letter α. -/
def isWordChar (c : Char) : Bool := c.isAlphanum || c = '_' || c = 'α'

/-- Python `str.lower()` (ASCII case mapping suffices for this corpus). -/
def lowerStr (s : Str) : Str := s.map Char.toLower

/-- `unaccented_letters` from the source: NFKD-normalize, then delete every
character that is not a word character, a space, or a hyphen
(`re.sub(r'[^\w -]', '', s)`). -/
def unaccented_letters (s : Str) : Str :=
  (nfkd s).filter (fun c => isWordChar c || c = ' ' || c = '-')

/-- `HEADWORD_SPECIAL_CASES` from the source: entry prefixes that bypass the
extraction heuristics, in insertion order. -/
def HEADWORD_SPECIAL_CASES : List (Str × Str) :=
  [("<B>a;</B>".toList, "a".toList),
   ("<B>Á,</B>".toList, "a".toList),
   ("<B>á,</B> <I>indecl".toList, "a".toList),
   ("<B>B</B> THE sound of b is produced".toList, "b".toList),
   ("<B>D</B> is sometimes changed".toList, "d".toList),
   ("<B>A.</B> Anglo-Saxon words, containing the short or un".toList,
     "e".toList),
   ("<B>F</B> At the end of syllable".toList, "f".toList),
   ("<B>I</B> THE Runic character".toList, "i".toList),
   ("<B>Ii,</B> Hii, <I>Iona</I>".toList, "hii".toList),
   ("<B>Ó</B> <I>ever.</I>".toList, "a".toList),
   ("<B>ī.</B> es; <I>m. A letter</I>".toList, "i".toList),
   ("<B>á</B> = on :-- Á felda".toList, "a".toList),
   ("<B>á</B> <I>ever.</I> <B>B.".toList, "a".toList)]

/-- First special-case headword whose key is a literal prefix of the entry,
if any. -/
def findSpecial (e : Str) : Option Str :=
  (HEADWORD_SPECIAL_CASES.find? (fun p => p.1.isPrefixOf e)).map Prod.snd

/-- The two hyphen-fragment filters at the end of `extract_headwords`: drop
a piece with a trailing hyphen unless it is the last piece, then drop a
piece with a leading hyphen unless it is the first remaining piece. -/
def dropVariantFragments (ws : List Str) : List Str :=
  let full1 :=
    (ws.enum.filter
      (fun p => ¬p.2.getLast? = some '-' ∨ p.1 + 1 = ws.length)).map Prod.snd
  (full1.enum.filter (fun p => ¬p.2.head? = some '-' ∨ p.1 = 0)).map Prod.snd

/-- `extract_headwords` from the source: special-case prefixes first;
otherwise match `^<B>([^<]+)</B>`, split the bolded text on commas,
lowercase and unaccent each piece, strip trailing reference markers, drop
empty pieces, and apply the hyphen-fragment filters.  The failed-match
assert surfaces as an error carrying the entry. -/
def extract_headwords (e : Str) : Except Str (List Str) :=
  match findSpecial e with
  | some h => Except.ok [h]
  | none =>
    if boldMark.isPrefixOf e ∧ (e.drop 3).takeWhile (fun c => c ≠ '<') ≠ [] ∧
        boldClose.isPrefixOf
          ((e.drop 3).drop (((e.drop 3).takeWhile (fun c => c ≠ '<')).length))
    then
      Except.ok (dropVariantFragments
        ((((splitOnChar ',' ((e.drop 3).takeWhile (fun c => c ≠ '<'))).map
            (fun s => unaccented_letters (lowerStr s))).map
              remove_trailing_part_refs).filter (fun w => w ≠ [])))
    else Except.error e

/-- A collected record (`Entry` in the source): the set of headword
spellings seen for one canonical key — modelled as a duplicate-free list,
since only membership matters for a Python `set` — and the list of
definition blocks in stream order. -/
structure Entry where
  headwords : List Str
  defns : List Str
deriving DecidableEq

/-- The exceptions `collect_entries` can raise: the failed-match assert
inside `extract_headwords`, the `len(headwords) >= 1` assert, and the
bad-normalization `Exception` with its diagnostic payload. -/
inductive CollectError
  | noHeadword (e : Str)
  | emptyHeadwords (e : Str)
  | badNormalization (term : Str) (headwords : List Str) (e : Str)
deriving DecidableEq

/-- Add one spelling to a spelling set (no effect when already present). -/
def hwInsert (s : List Str) (h : Str) : List Str :=
  if h ∈ s then s else s ++ [h]

/-- Python `set.update`: add each extracted headword to the spelling set. -/
def hwUpdate (s : List Str) (hs : List Str) : List Str := hs.foldl hwInsert s

/-- Look a canonical key up in the collected mapping (an association list
in key-creation order, mirroring the Python dict). -/
def lookupA (m : List (Str × Entry)) (k : Str) : Option Entry :=
  match m with
  | [] => none
  | (k2, r) :: rest => if k2 = k then some r else lookupA rest k

/-- The two mutations `collected[term].headwords.update(headwords)` and
`collected[term].defns.append(e)` on the defaultdict: update the record in
place, creating it (from the empty default) when the key is new. -/
def updateA (m : List (Str × Entry)) (k : Str) (hws : List Str) (d : Str) :
    List (Str × Entry) :=
  match m with
  | [] => [(k, ⟨hwUpdate [] hws, [d]⟩)]
  | (k2, r) :: rest =>
    if k2 = k then (k2, ⟨hwUpdate r.headwords hws, r.defns ++ [d]⟩) :: rest
    else (k2, r) :: updateA rest k hws d

/-- One iteration of the `for e in entries` loop of `collect_entries`,
parametrized by the external collaborators.  `fixE` is
`normalize.fix_entities` and `asc` is `normalize.ascify`; `normalize.py` is
not among the sources, and the spec treats both as opaque pure
text-to-text transforms, so the model quantifies over them. -/
def collectStep (fixE asc : Str → Str) (m : List (Str × Entry)) (e : Str) :
    Except CollectError (List (Str × Entry)) :=
  match extract_headwords (fixE e) with
  | Except.error err => Except.error (CollectError.noHeadword err)
  | Except.ok hws =>
    if hws = [] then Except.error (CollectError.emptyHeadwords (fixE e))
    else if asc (hws.headD []) = [] ∨ [] ∈ hws then
      Except.error
        (CollectError.badNormalization (asc (hws.headD [])) hws (fixE e))
    else Except.ok (updateA m (asc (hws.headD [])) hws (fixE e))

/-- The loop of `collect_entries` over the entry blocks. -/
def collectRun (fixE asc : Str → Str) :
    List (Str × Entry) → List Str → Except CollectError (List (Str × Entry))
  | m, [] => Except.ok m
  | m, e :: rest =>
    (collectStep fixE asc m e).bind (fun m2 => collectRun fixE asc m2 rest)

/-- `collect_entries` from the source: fold the entry blocks into a mapping
from canonical key to collected record. -/
def collect_entries (fixE asc : Str → Str) (es : List Str) :
    Except CollectError (List (Str × Entry)) :=
  collectRun fixE asc [] es

/-- The definition blocks collected so far under a key (empty when the key
is absent). -/
def defnsOf (m : List (Str × Entry)) (k : Str) : List Str :=
  ((lookupA m k).getD ⟨[], []⟩).defns

/-- The headword spellings collected so far under a key (empty when the
key is absent). -/
def hwsOf (m : List (Str × Entry)) (k : Str) : List Str :=
  ((lookupA m k).getD ⟨[], []⟩).headwords

/-- Structure of every entry block `read_entries` builds: the trimmed
bold-starting line that opened it, directly followed by each trimmed
continuation line suffixed with a newline (`partial = line` at the start,
`partial += line + '\n'` for continuations in the source). -/
def GoodBlock (b : Str) : Prop :=
  ∃ (first : Str) (conts : List Str),
    b = first ++ (conts.map (fun l => l ++ ['\n'])).flatten ∧
    boldMark.isPrefixOf first = true ∧ trim first = first

/-- Invariant of the `read_entries` loop state: the accumulator, when open,
and every emitted entry have the block structure above. -/
def ConfigOK (c : Config) : Prop :=
  (c.acc = [] ∨ GoodBlock c.acc) ∧ ∀ b ∈ c.entries, GoodBlock b

/-! ### Lemmas about trimming -/

theorem dropWhile_isPySpace_idem (l : Str) :
    (l.dropWhile isPySpace).dropWhile isPySpace = l.dropWhile isPySpace := by
  induction l with
  | nil => rfl
  | cons c l ih =>
    by_cases h : isPySpace c
    · simp [List.dropWhile_cons, h, ih]
    · simp [List.dropWhile_cons, h]

theorem ldrop_idem (l : Str) : ldrop (ldrop l) = ldrop l :=
  dropWhile_isPySpace_idem l

theorem rdrop_idem (l : Str) : rdrop (rdrop l) = rdrop l := by
  unfold rdrop
  rw [List.reverse_reverse, dropWhile_isPySpace_idem]

theorem rdrop_prefix (l : Str) : rdrop l <+: l := by
  have h : (l.reverse.dropWhile isPySpace) <:+ l.reverse :=
    List.dropWhile_suffix isPySpace
  have h2 := List.reverse_prefix.mpr h
  rwa [List.reverse_reverse] at h2

theorem head?_of_prefix {l1 l2 : Str} (h : l1 <+: l2) (hne : l1 ≠ []) :
    l2.head? = l1.head? := by
  obtain ⟨t, rfl⟩ := h
  cases l1 with
  | nil => exact absurd rfl hne
  | cons a l => simp

theorem ldrop_head_not_space (l : Str) :
    ∀ c ∈ (ldrop l).head?, isPySpace c = false := by
  induction l with
  | nil => simp [ldrop]
  | cons c l ih =>
    by_cases h : isPySpace c
    · simpa [ldrop, List.dropWhile_cons, h] using ih
    · simp [ldrop, List.dropWhile_cons, h]

theorem ldrop_eq_self (l : Str) (h : ∀ c ∈ l.head?, isPySpace c = false) :
    ldrop l = l := by
  cases l with
  | nil => rfl
  | cons c l =>
    simp only [List.head?_cons, Option.mem_def, Option.some.injEq] at h
    simp [ldrop, List.dropWhile_cons, h c rfl]

theorem ldrop_rdrop_ldrop (l : Str) :
    ldrop (rdrop (ldrop l)) = rdrop (ldrop l) := by
  by_cases hnil : rdrop (ldrop l) = []
  · rw [hnil]; rfl
  · refine ldrop_eq_self _ (fun c hc => ?_)
    have hpre := rdrop_prefix (ldrop l)
    have hhead := head?_of_prefix hpre hnil
    exact ldrop_head_not_space l c (hhead.symm ▸ hc)

theorem trim_idem (l : Str) : trim (trim l) = trim l := by
  unfold trim
  rw [ldrop_rdrop_ldrop, rdrop_idem]

theorem trim_nil : trim [] = [] := rfl

/-! ### Lemmas about the segmenter's step function -/

theorem boldMark_not_prefix_nil : boldMark.isPrefixOf ([] : Str) = false := rfl

theorem headerMark_not_prefix_nil :
    headerMark.isPrefixOf ([] : Str) = false := rfl

theorem pageNumMark_not_prefix_nil :
    pageNumMark.isPrefixOf ([] : Str) = false := rfl

theorem letterHeaderMark_not_prefix_nil :
    letterHeaderMark.isPrefixOf ([] : Str) = false := rfl

theorem ne_nil_of_boldMark_prefix {b : Str}
    (h : boldMark.isPrefixOf b = true) : b ≠ [] := by
  intro hb
  rw [hb] at h
  exact Bool.false_ne_true h

/-- Branch 1 of the loop, in a state where an entry may legally start:
emit any open accumulator and restart it from the trimmed line. -/
theorem step_bold (c : Config) (raw : Str)
    (hb : boldMark.isPrefixOf (trim raw) = true)
    (hn : (c.n + 1) ∉ NOT_AN_ENTRY)
    (hs : c.state = S.BREAK ∨ c.state = S.PAGE_BREAK ∨ c.state = S.INTRO)
    (hi : c.state = S.INTRO → c.acc = []) :
    step c raw = Except.ok ⟨S.ENTRY, trim raw,
      if c.acc = [] then c.entries else c.entries ++ [c.acc], c.n + 1⟩ := by
  unfold step
  rw [if_pos ⟨hb, hn⟩, if_pos (by tauto),
    if_neg (fun hh => hh.2 (hi hh.1))]
  by_cases hacc : c.acc = [] <;> simp [hacc]

/-- Branch 1 of the loop with the assert failing: a bolded line in state
`ENTRY` whose ordinal is in neither exception set is fatal. -/
theorem step_bold_mid_entry (c : Config) (raw : Str)
    (hb : boldMark.isPrefixOf (trim raw) = true)
    (hn : (c.n + 1) ∉ NOT_AN_ENTRY)
    (hs : c.state = S.ENTRY)
    (ha : (c.n + 1) ∉ ALWAYS_AN_ENTRY) :
    step c raw = Except.error (SegError.boldMidEntry c.state (c.n + 1)) := by
  unfold step
  rw [if_pos ⟨hb, hn⟩, if_neg]
  rintro (h1 | h2 | h3 | ⟨h4, _⟩)
  · rw [hs] at h1; exact S.noConfusion h1
  · rw [hs] at h2; exact S.noConfusion h2
  · rw [hs] at h3; exact S.noConfusion h3
  · exact ha h4

/-- Branch 3 of the loop: a blank line inside an entry opens a break. -/
theorem step_blank_entry (c : Config) (raw : Str)
    (hs : c.state = S.ENTRY) (ht : trim raw = []) :
    step c raw = Except.ok ⟨S.BREAK, c.acc, c.entries, c.n + 1⟩ := by
  unfold step
  rw [ht]
  rw [if_neg (fun hh => Bool.false_ne_true (boldMark_not_prefix_nil ▸ hh.1)),
    if_neg (fun hh => S.noConfusion (hh ▸ hs)), if_pos ⟨rfl, hs⟩]

/-- The final branch of the loop for a blank line seen in state `BREAK`:
the blank is consumed as continuation text, a bare newline is appended to
the open accumulator, and the machine returns to `ENTRY`. -/
theorem step_blank_break_cont (c : Config) (raw : Str)
    (hs : c.state = S.BREAK) (hacc : c.acc ≠ []) (ht : trim raw = []) :
    step c raw =
      Except.ok ⟨S.ENTRY, c.acc ++ ['\n'], c.entries, c.n + 1⟩ := by
  unfold step
  rw [ht]
  rw [if_neg (fun hh => Bool.false_ne_true (boldMark_not_prefix_nil ▸ hh.1)),
    if_neg (fun hh => S.noConfusion (hh ▸ hs)),
    if_neg (fun hh => S.noConfusion (hh.2 ▸ hs)),
    if_neg (fun hh => ?_), if_neg (fun hh => S.noConfusion (hh.2 ▸ hs)),
    if_neg hacc, if_neg (fun hh => hh (Or.inr (Or.inr hs))),
    if_neg (fun hh => hh (Or.inr (fun hb => Bool.false_ne_true
      (boldMark_not_prefix_nil ▸ hb))))]
  · simp
  · rcases hh with h1 | h2 | h3
    · exact Bool.false_ne_true (headerMark_not_prefix_nil ▸ h1)
    · exact Bool.false_ne_true (pageNumMark_not_prefix_nil ▸ h2)
    · exact Bool.false_ne_true (letterHeaderMark_not_prefix_nil ▸ h3)

theorem runLines_cons_ok (c c2 : Config) (l : Str) (ls : List Str)
    (h : step c l = Except.ok c2) :
    runLines c (l :: ls) = runLines c2 ls := by
  show (step c l).bind (fun c3 => runLines c3 ls) = runLines c2 ls
  rw [h]
  rfl

theorem runLines_cons_error (c : Config) (e : SegError) (l : Str)
    (ls : List Str) (h : step c l = Except.error e) :
    runLines c (l :: ls) = Except.error e := by
  show (step c l).bind (fun c3 => runLines c3 ls) = Except.error e
  rw [h]
  rfl

theorem runLines_append (c : Config) (l1 l2 : List Str) :
    runLines c (l1 ++ l2) =
      (runLines c l1).bind (fun c2 => runLines c2 l2) := by
  induction l1 generalizing c with
  | nil => rfl
  | cons l ls ih =>
    show (step c l).bind _ = ((step c l).bind _).bind _
    cases step c l with
    | error e => rfl
    | ok c2 => exact ih c2

/-! ### The block-structure invariant of the segmenter -/

theorem step_preserves_ok (c : Config) (raw : Str) (c2 : Config)
    (hc : ConfigOK c) (h : step c raw = Except.ok c2) : ConfigOK c2 := by
  unfold step at h
  split_ifs at h with h1 h2 h3 h4 h5 h6 h7 h8 h9 h10 h11 h12
  · simp only [Except.ok.injEq] at h
    subst h
    exact ⟨Or.inr ⟨trim raw, [], by simp, h1.1, trim_idem raw⟩, hc.2⟩
  · simp only [Except.ok.injEq] at h
    subst h
    refine ⟨Or.inr ⟨trim raw, [], by simp, h1.1, trim_idem raw⟩, ?_⟩
    intro b hb
    rcases List.mem_append.mp hb with hb1 | hb2
    · exact hc.2 b hb1
    · rw [List.mem_singleton.mp hb2]
      exact hc.1.resolve_left h4
  · simp only [Except.ok.injEq] at h
    subst h
    exact ⟨hc.1, hc.2⟩
  · simp only [Except.ok.injEq] at h
    subst h
    exact ⟨hc.1, hc.2⟩
  · simp only [Except.ok.injEq] at h
    subst h
    exact ⟨hc.1, hc.2⟩
  · simp only [Except.ok.injEq] at h
    subst h
    exact ⟨hc.1, hc.2⟩
  · simp only [Except.ok.injEq] at h
    subst h
    refine ⟨Or.inr ?_, hc.2⟩
    obtain ⟨first, conts, hbeq, hbold, htrim⟩ := hc.1.resolve_left h10
    refine ⟨first, conts ++ [trim raw], ?_, hbold, htrim⟩
    rw [hbeq]
    simp [List.append_assoc]

theorem runLines_preserves_ok (ls : List Str) (c c2 : Config)
    (hc : ConfigOK c) (h : runLines c ls = Except.ok c2) : ConfigOK c2 := by
  induction ls generalizing c with
  | nil =>
    simp only [runLines, Except.ok.injEq] at h
    subst h
    exact hc
  | cons l ls ih =>
    cases hs : step c l with
    | error e => rw [runLines_cons_error c e l ls hs] at h; exact Except.noConfusion h
    | ok c3 =>
      rw [runLines_cons_ok c c3 l ls hs] at h
      exact ih c3 (step_preserves_ok c l c3 hc hs) h

theorem initConfig_ok : ConfigOK initConfig :=
  ⟨Or.inl rfl, fun b hb => absurd hb (List.not_mem_nil b)⟩

/-- Every block `read_entries` emits has the `GoodBlock` structure. -/
theorem read_entries_good (ls : List Str) (es : List Str)
    (h : read_entries ls = Except.ok es) : ∀ b ∈ es, GoodBlock b := by
  unfold read_entries at h
  cases hr : runLines initConfig ls with
  | error e => rw [hr] at h; exact Except.noConfusion h
  | ok c =>
    rw [hr] at h
    simp only [Except.map, Except.ok.injEq] at h
    have hco := runLines_preserves_ok ls initConfig c initConfig_ok hr
    subst h
    intro b hb
    by_cases hacc : c.acc = []
    · rw [if_pos hacc] at hb
      exact hco.2 b hb
    · rw [if_neg hacc] at hb
      rcases List.mem_append.mp hb with hb1 | hb2
      · exact hco.2 b hb1
      · rw [List.mem_singleton.mp hb2]
        exact hco.1.resolve_left hacc

/-- A block of the `GoodBlock` structure that contains no newline is exactly
its trimmed, bold-starting first line. -/
theorem goodBlock_no_newline (b : Str) (h : GoodBlock b) (hn : '\n' ∉ b) :
    boldMark.isPrefixOf b = true ∧ trim b = b ∧ b ≠ [] := by
  obtain ⟨first, conts, hbeq, hbold, htrim⟩ := h
  cases conts with
  | nil =>
    simp only [List.map_nil, List.flatten_nil, List.append_nil] at hbeq
    subst hbeq
    exact ⟨hbold, htrim, ne_nil_of_boldMark_prefix hbold⟩
  | cons cl cls =>
    exfalso
    apply hn
    rw [hbeq]
    refine List.mem_append.mpr (Or.inr ?_)
    simp

/-! ### Claim C1 -/

/-- C1 counterexample: on the seven scenario lines `read_entries` does not
return the two expected entry blocks. -/
theorem read_entries_c1_scenario_not_two_entries :
    read_entries (["", "<B>word,</B> text1", "", "<B>word2,</B> text2",
      "<HEADER>pg</HEADER>", "", "more text2"].map String.toList) ≠
      Except.ok ["<B>word,</B> text1".toList,
        "<B>word2,</B> text2\nmore text2".toList] := by decide

/-- C1 (amended): on the seven scenario lines `read_entries` aborts with the
header assert at ordinal 5 in state `ENTRY` — the header directly follows
the second entry's bolded start line with no intervening blank line, which
the segmenter treats as fatal. -/
theorem read_entries_c1_scenario_aborts :
    read_entries (["", "<B>word,</B> text1", "", "<B>word2,</B> text2",
      "<HEADER>pg</HEADER>", "", "more text2"].map String.toList) =
      Except.error (SegError.headerOutsideBreak S.ENTRY 5) := by decide

/-! ### Claim C2 -/

/-- C2 counterexample: the emitted block for the lines
`["<B>a</B>", "", "x"]` is not the newline-join of its consumed lines
`"<B>a</B>"` and `"x"`: the start line and the first continuation line are
concatenated with no separator, and the block carries a trailing newline. -/
theorem read_entries_c2_not_newline_join :
    read_entries ["<B>a</B>".toList, [], "x".toList] =
      Except.ok ["<B>a</B>x\n".toList] ∧
    "<B>a</B>x\n".toList ≠
      List.intercalate ['\n'] ["<B>a</B>".toList, "x".toList] := by decide

/-- C2 (amended): every block `read_entries` emits is its trimmed
bold-starting first line directly concatenated with each trimmed
continuation line suffixed by a newline — each continuation contributes
`line ++ "\n"`, with no separator between the start line and the first
continuation and a trailing newline whenever a continuation exists. -/
theorem read_entries_c2_block_shape (ls es : List Str) (b : Str)
    (h : read_entries ls = Except.ok es) (hb : b ∈ es) :
    ∃ (first : Str) (conts : List Str),
      b = first ++ (conts.map (fun l => l ++ ['\n'])).flatten ∧
      boldMark.isPrefixOf first = true ∧ trim first = first :=
  read_entries_good ls es h b hb

theorem read_entries_c2_block_shape_witness :
    ∃ (first : Str) (conts : List Str),
      "<B>a</B>x\n".toList =
        first ++ (conts.map (fun l => l ++ ['\n'])).flatten ∧
      boldMark.isPrefixOf first = true ∧ trim first = first :=
  read_entries_c2_block_shape ["<B>a</B>".toList, [], "x".toList]
    ["<B>a</B>x\n".toList] "<B>a</B>x\n".toList (by decide) (by simp)

/-! ### Claim C6 -/

/-- C6: when the machine is in state `ENTRY` and the next trimmed line
starts with the bold marker at an ordinal in neither exception set,
`read_entries` aborts at once with the segmentation assert whose context
carries the current state and the line's ordinal — the remaining lines are
never examined. -/
theorem read_entries_c6_bold_mid_entry_fatal (pre : List Str) (c : Config)
    (line : Str) (rest : List Str)
    (hpre : runLines initConfig pre = Except.ok c)
    (hstate : c.state = S.ENTRY)
    (hbold : boldMark.isPrefixOf (trim line) = true)
    (hnot : (c.n + 1) ∉ NOT_AN_ENTRY)
    (halw : (c.n + 1) ∉ ALWAYS_AN_ENTRY) :
    read_entries (pre ++ line :: rest) =
      Except.error (SegError.boldMidEntry S.ENTRY (c.n + 1)) := by
  unfold read_entries
  rw [runLines_append, hpre]
  show (runLines c (line :: rest)).map _ = _
  rw [runLines_cons_error c _ line rest
    (hstate ▸ step_bold_mid_entry c line hbold hnot hstate halw)]
  rfl

theorem read_entries_c6_witness :
    read_entries (["<B>a</B>".toList] ++ "<B>b</B>".toList :: ["x".toList]) =
      Except.error (SegError.boldMidEntry S.ENTRY 2) :=
  read_entries_c6_bold_mid_entry_fatal ["<B>a</B>".toList]
    ⟨S.ENTRY, "<B>a</B>".toList, [], 1⟩ "<B>b</B>".toList ["x".toList]
    (by decide) rfl (by decide) (by decide) (by decide)

/-! ### Claim C9 -/

/-- C9: every entry block `read_entries` emits — on a new entry start or at
end of stream — is a nonempty string. -/
theorem read_entries_c9_no_empty_block (ls es : List Str)
    (h : read_entries ls = Except.ok es) : ∀ b ∈ es, b ≠ [] := by
  intro b hb
  obtain ⟨first, conts, hbeq, hbold, htrim⟩ := read_entries_good ls es h b hb
  rw [hbeq]
  intro hnil
  exact ne_nil_of_boldMark_prefix hbold (List.append_eq_nil.mp hnil).1

theorem read_entries_c9_witness : "<B>a</B>".toList ≠ [] :=
  read_entries_c9_no_empty_block ["<B>a</B>".toList] ["<B>a</B>".toList]
    (by decide) "<B>a</B>".toList (by simp)

/-! ### Claim C10 -/

/-- C10: a blank line seen in state `BREAK` with an open accumulator is not
discarded — it is consumed as continuation text, appending a bare newline
to the accumulator, and the machine returns to `ENTRY` (so emitted blocks
can contain embedded blank lines, and a run of blanks inside an entry
alternates between `BREAK` and `ENTRY`). -/
theorem read_entries_c10_blank_in_break (c : Config) (raw : Str)
    (hs : c.state = S.BREAK) (hacc : c.acc ≠ []) (ht : trim raw = []) :
    step c raw =
      Except.ok ⟨S.ENTRY, c.acc ++ ['\n'], c.entries, c.n + 1⟩ :=
  step_blank_break_cont c raw hs hacc ht

theorem read_entries_c10_witness :
    step ⟨S.BREAK, "<B>a</B>".toList, [], 2⟩ [] =
      Except.ok ⟨S.ENTRY, "<B>a</B>".toList ++ ['\n'], [], 3⟩ :=
  read_entries_c10_blank_in_break ⟨S.BREAK, "<B>a</B>".toList, [], 2⟩ []
    rfl (by decide) rfl

/-! ### Claim C4 -/

/-- C4 counterexample: a block with a continuation line does not round-trip.
The produced block `"<B>a</B>x\n"` re-split into lines and re-fed to
`read_entries` (with a blank line before the second block) does not
reproduce the two original blocks. -/
theorem read_entries_c4_rerun_ce :
    read_entries ["<B>a</B>".toList, [], "x".toList] =
      Except.ok ["<B>a</B>x\n".toList] ∧
    read_entries ["<B>b</B>".toList] = Except.ok ["<B>b</B>".toList] ∧
    read_entries (splitlines ("<B>a</B>x\n".toList) ++ [[]] ++
      splitlines ("<B>b</B>".toList)) ≠
      Except.ok ["<B>a</B>x\n".toList, "<B>b</B>".toList] := by decide

/-- C4 (amended): the round trip holds for single-line blocks.  For any two
newline-free blocks that `read_entries` has produced, re-running it on the
first block, a blank line, and the second block returns exactly those two
blocks. -/
theorem read_entries_c4_rerun_single_line (ls1 ls2 es1 es2 : List Str)
    (B1 B2 : Str)
    (h1 : read_entries ls1 = Except.ok es1) (hm1 : B1 ∈ es1)
    (h2 : read_entries ls2 = Except.ok es2) (hm2 : B2 ∈ es2)
    (hn1 : '\n' ∉ B1) (hn2 : '\n' ∉ B2) :
    read_entries [B1, [], B2] = Except.ok [B1, B2] := by
  obtain ⟨hb1, ht1, hne1⟩ :=
    goodBlock_no_newline B1 (read_entries_good ls1 es1 h1 B1 hm1) hn1
  obtain ⟨hb2, ht2, hne2⟩ :=
    goodBlock_no_newline B2 (read_entries_good ls2 es2 h2 B2 hm2) hn2
  have s1 : step initConfig B1 = Except.ok ⟨S.ENTRY, B1, [], 1⟩ := by
    rw [step_bold initConfig B1 (by rw [ht1]; exact hb1) (by decide)
      (Or.inr (Or.inr rfl)) (fun _ => rfl), ht1]
    rfl
  have s2 : step ⟨S.ENTRY, B1, [], 1⟩ [] = Except.ok ⟨S.BREAK, B1, [], 2⟩ :=
    step_blank_entry ⟨S.ENTRY, B1, [], 1⟩ [] rfl rfl
  have s3 : step ⟨S.BREAK, B1, [], 2⟩ B2 =
      Except.ok ⟨S.ENTRY, B2, [B1], 3⟩ := by
    rw [step_bold ⟨S.BREAK, B1, [], 2⟩ B2 (by rw [ht2]; exact hb2)
      (show (3 : Nat) ∉ NOT_AN_ENTRY by decide) (Or.inl rfl)
      (fun hh => absurd hh (show ¬(S.BREAK = S.INTRO) by decide)), ht2]
    rw [if_neg hne1]
    rfl
  have hrun : runLines initConfig [B1, [], B2] =
      Except.ok ⟨S.ENTRY, B2, [B1], 3⟩ := by
    rw [runLines_cons_ok _ _ _ _ s1, runLines_cons_ok _ _ _ _ s2,
      runLines_cons_ok _ _ _ _ s3]
    rfl
  unfold read_entries
  rw [hrun]
  show Except.ok (if B2 = [] then [B1] else [B1] ++ [B2]) =
    Except.ok [B1, B2]
  rw [if_neg hne2]
  rfl

theorem read_entries_c4_witness :
    read_entries ["<B>a</B> one".toList, [], "<B>b</B> two".toList] =
      Except.ok ["<B>a</B> one".toList, "<B>b</B> two".toList] :=
  read_entries_c4_rerun_single_line ["<B>a</B> one".toList]
    ["<B>b</B> two".toList] ["<B>a</B> one".toList] ["<B>b</B> two".toList]
    ("<B>a</B> one".toList) ("<B>b</B> two".toList)
    (by decide) (by simp) (by decide) (by simp) (by decide) (by decide)

/-! ### Claim C3 -/

/-- C3 counterexample: for the entry `"<B>foo-, -bar</B> text"`,
`extract_headwords` does not return `["bar"]`. -/
theorem extract_headwords_c3_dash_ce :
    extract_headwords ("<B>foo-, -bar</B> text".toList) ≠
      Except.ok ["bar".toList] := by decide

/-- C3 (amended): the hyphen-fragment list rules behave as claimed —
`["foo-", "bar-baz"]` keeps only `"bar-baz"` and `["foo-bar", "-baz"]`
keeps only `"foo-bar"` — but the surviving leading-hyphen piece of
`"<B>foo-, -bar</B> text"` is returned with its dash intact, as
`["-bar"]`: no dash-stripping step exists. -/
theorem extract_headwords_c3_variant_drops :
    dropVariantFragments ["foo-".toList, "bar-baz".toList] =
      ["bar-baz".toList] ∧
    dropVariantFragments ["foo-bar".toList, "-baz".toList] =
      ["foo-bar".toList] ∧
    extract_headwords ("<B>foo-, -bar</B> text".toList) =
      Except.ok ["-bar".toList] := by decide

/-! ### Claim C5 -/

/-- C5 counterexample: a reference marker attached to the headword by a
hyphen separator is not stripped — the regex separator admits only a space
or the start of the string. -/
theorem remove_trailing_part_refs_c5_hyphen_ce :
    remove_trailing_part_refs ("ge-reafian-i".toList) =
      "ge-reafian-i".toList ∧
    remove_trailing_part_refs ("ge-reafian-i".toList) ≠
      "ge-reafian".toList := by decide

/-- C5 (amended): `remove_trailing_part_refs` strips one or more trailing
reference markers exactly when each is separated by a space: if the
trimmed string splits on spaces into a non-marker stem followed by one or
more marker tokens, the result is the stem alone.  Hyphen-attached markers
are not separators and are not stripped (see the counterexample). -/
theorem remove_trailing_part_refs_c5_space_markers (s w : Str)
    (ts : List Str)
    (htrim : trim s = s)
    (hsplit : splitOnChar ' ' s = w :: ts)
    (hw : isRefMarker w = false)
    (_hts : ts ≠ [])
    (hmark : ∀ t ∈ ts, isRefMarker t = true) :
    remove_trailing_part_refs s = w := by
  unfold remove_trailing_part_refs
  rw [htrim, hsplit]
  rw [if_neg (fun hall => by
    rw [List.all_cons, hw, Bool.false_and] at hall
    exact Bool.false_ne_true hall)]
  rw [List.reverse_cons]
  have h1 : ts.reverse.dropWhile (fun t => isRefMarker t) = [] :=
    List.dropWhile_eq_nil_iff.mpr
      (fun x hx => hmark x (List.mem_reverse.mp hx))
  rw [List.dropWhile_append, h1]
  simp only [List.isEmpty_nil, if_true]
  rw [List.dropWhile_cons, hw]
  rfl

theorem remove_trailing_part_refs_c5_witness :
    remove_trailing_part_refs ("ge-reafian i".toList) = "ge-reafian".toList :=
  remove_trailing_part_refs_c5_space_markers ("ge-reafian i".toList)
    "ge-reafian".toList ["i".toList] (by decide) (by decide) (by decide)
    (by decide) (by decide)

/-! ### Lemmas about the aggregator -/

theorem exceptBind_ok_inv {ε α β : Type} (x : Except ε α)
    (f : α → Except ε β) (b : β) (h : x.bind f = Except.ok b) :
    ∃ a, x = Except.ok a ∧ f a = Except.ok b := by
  cases x with
  | error e =>
    change Except.error e = Except.ok b at h
    exact Except.noConfusion h
  | ok a =>
    change f a = Except.ok b at h
    exact ⟨a, rfl, h⟩

theorem hwInsert_mem (s : List Str) (h x : Str) :
    x ∈ hwInsert s h ↔ x ∈ s ∨ x = h := by
  unfold hwInsert
  by_cases hm : h ∈ s
  · rw [if_pos hm]
    exact ⟨Or.inl, fun hh => hh.elim id (fun he => he ▸ hm)⟩
  · rw [if_neg hm]
    simp [List.mem_append]

theorem hwInsert_nodup (s : List Str) (h : Str) (hn : s.Nodup) :
    (hwInsert s h).Nodup := by
  unfold hwInsert
  by_cases hm : h ∈ s
  · rw [if_pos hm]; exact hn
  · rw [if_neg hm]
    simp [List.nodup_append, hn, hm]

theorem hwUpdate_mem (s hs : List Str) (x : Str) :
    x ∈ hwUpdate s hs ↔ x ∈ s ∨ x ∈ hs := by
  induction hs generalizing s with
  | nil => simp [hwUpdate]
  | cons h t ih =>
    show x ∈ hwUpdate (hwInsert s h) t ↔ _
    rw [ih, hwInsert_mem]
    simp only [List.mem_cons]
    tauto

theorem hwUpdate_nodup (s hs : List Str) (hn : s.Nodup) :
    (hwUpdate s hs).Nodup := by
  induction hs generalizing s with
  | nil => exact hn
  | cons h t ih => exact ih (hwInsert s h) (hwInsert_nodup s h hn)

theorem lookupA_updateA_self (m : List (Str × Entry)) (k : Str)
    (hws : List Str) (d : Str) :
    lookupA (updateA m k hws d) k =
      some ⟨hwUpdate (((lookupA m k).getD ⟨[], []⟩).headwords) hws,
        ((lookupA m k).getD ⟨[], []⟩).defns ++ [d]⟩ := by
  induction m with
  | nil => simp [updateA, lookupA]
  | cons p rest ih =>
    obtain ⟨k2, r⟩ := p
    by_cases hk : k2 = k
    · subst hk
      simp [updateA, lookupA]
    · simp [updateA, lookupA, hk, ih]

theorem lookupA_updateA_other (m : List (Str × Entry)) (k k2 : Str)
    (hws : List Str) (d : Str) (h : k2 ≠ k) :
    lookupA (updateA m k hws d) k2 = lookupA m k2 := by
  induction m with
  | nil =>
    simp only [updateA, lookupA]
    rw [if_neg (fun hh => h hh.symm)]
  | cons p rest ih =>
    obtain ⟨k3, r⟩ := p
    by_cases hk : k3 = k
    · subst hk
      simp only [updateA, lookupA, eq_self_iff_true, if_true]
      rw [if_neg (fun hh => h hh.symm), if_neg (fun hh => h hh.symm)]
    · simp only [updateA, lookupA]
      rw [if_neg hk]
      simp only [lookupA, ih]

theorem mem_updateA_keys (m : List (Str × Entry)) (k : Str)
    (hws : List Str) (d : Str) (a : Str) :
    a ∈ (updateA m k hws d).map Prod.fst ↔
      a ∈ m.map Prod.fst ∨ a = k := by
  induction m with
  | nil => simp [updateA]
  | cons p rest ih =>
    obtain ⟨k2, r⟩ := p
    by_cases hk : k2 = k
    · subst hk
      simp only [updateA, eq_self_iff_true, if_true, List.map_cons,
        List.mem_cons]
      tauto
    · simp only [updateA]
      rw [if_neg hk]
      simp only [List.map_cons, List.mem_cons, ih]
      tauto

theorem updateA_nodup_keys (m : List (Str × Entry)) (k : Str)
    (hws : List Str) (d : Str) (h : (m.map Prod.fst).Nodup) :
    ((updateA m k hws d).map Prod.fst).Nodup := by
  induction m with
  | nil => simp [updateA]
  | cons p rest ih =>
    obtain ⟨k2, r⟩ := p
    simp only [List.map_cons, List.nodup_cons] at h
    by_cases hk : k2 = k
    · subst hk
      simp only [updateA, eq_self_iff_true, if_true, List.map_cons,
        List.nodup_cons]
      exact h
    · simp only [updateA]
      rw [if_neg hk]
      simp only [List.map_cons, List.nodup_cons]
      refine ⟨fun hmem => ?_, ih h.2⟩
      rcases (mem_updateA_keys rest k hws d k2).mp hmem with h1 | h2
      · exact h.1 h1
      · exact hk h2

theorem lookupA_mem (m : List (Str × Entry)) (k : Str) (r : Entry)
    (h : lookupA m k = some r) : (k, r) ∈ m := by
  induction m with
  | nil => simp [lookupA] at h
  | cons p rest ih =>
    obtain ⟨k2, r2⟩ := p
    by_cases hk : k2 = k
    · subst hk
      simp only [lookupA, eq_self_iff_true, if_true, Option.some.injEq] at h
      subst h
      exact List.mem_cons_self _ _
    · simp only [lookupA, if_neg hk] at h
      exact List.mem_cons_of_mem _ (ih h)

theorem updateA_records_nodup (m : List (Str × Entry)) (k : Str)
    (hws : List Str) (d : Str)
    (hm : ∀ p ∈ m, (Prod.snd p).headwords.Nodup) :
    ∀ p ∈ updateA m k hws d, (Prod.snd p).headwords.Nodup := by
  induction m with
  | nil =>
    intro p hp
    simp only [updateA, List.mem_singleton] at hp
    subst hp
    exact hwUpdate_nodup [] hws List.nodup_nil
  | cons q rest ih =>
    obtain ⟨k2, r⟩ := q
    intro p hp
    by_cases hk : k2 = k
    · subst hk
      simp only [updateA, eq_self_iff_true, if_true, List.mem_cons] at hp
      rcases hp with hp | hp
      · subst hp
        exact hwUpdate_nodup _ hws (hm (k2, r) (List.mem_cons_self _ _))
      · exact hm p (List.mem_cons_of_mem _ hp)
    · simp only [updateA, if_neg hk, List.mem_cons] at hp
      rcases hp with hp | hp
      · subst hp
        exact hm (k2, r) (List.mem_cons_self _ _)
      · exact ih (fun q hq => hm q (List.mem_cons_of_mem _ hq)) p hp

theorem updateA_nonempty (m : List (Str × Entry)) (k : Str)
    (hws : List Str) (d : Str)
    (hm : ∀ p ∈ m, (Prod.fst p) ≠ [] ∧ ∀ x ∈ (Prod.snd p).headwords, x ≠ [])
    (hk : k ≠ []) (hh : ∀ x ∈ hws, x ≠ []) :
    ∀ p ∈ updateA m k hws d,
      (Prod.fst p) ≠ [] ∧ ∀ x ∈ (Prod.snd p).headwords, x ≠ [] := by
  induction m with
  | nil =>
    intro p hp
    simp only [updateA, List.mem_singleton] at hp
    subst hp
    refine ⟨hk, fun x hx => ?_⟩
    rcases (hwUpdate_mem [] hws x).mp hx with h1 | h2
    · exact absurd h1 (List.not_mem_nil x)
    · exact hh x h2
  | cons q rest ih =>
    obtain ⟨k2, r⟩ := q
    intro p hp
    by_cases hkk : k2 = k
    · subst hkk
      simp only [updateA, eq_self_iff_true, if_true, List.mem_cons] at hp
      rcases hp with hp | hp
      · subst hp
        refine ⟨hk, fun x hx => ?_⟩
        rcases (hwUpdate_mem _ hws x).mp hx with h1 | h2
        · exact (hm (k2, r) (List.mem_cons_self _ _)).2 x h1
        · exact hh x h2
      · exact hm p (List.mem_cons_of_mem _ hp)
    · simp only [updateA, if_neg hkk, List.mem_cons] at hp
      rcases hp with hp | hp
      · subst hp
        exact hm (k2, r) (List.mem_cons_self _ _)
      · exact ih (fun q hq => hm q (List.mem_cons_of_mem _ hq)) p hp

theorem collectStep_ok_inv (fixE asc : Str → Str) (m : List (Str × Entry))
    (e : Str) (m2 : List (Str × Entry))
    (h : collectStep fixE asc m e = Except.ok m2) :
    ∃ hws, extract_headwords (fixE e) = Except.ok hws ∧ hws ≠ [] ∧
      ¬(asc (hws.headD []) = [] ∨ [] ∈ hws) ∧
      m2 = updateA m (asc (hws.headD [])) hws (fixE e) := by
  unfold collectStep at h
  cases hex : extract_headwords (fixE e) with
  | error err =>
    rw [hex] at h
    exact Except.noConfusion h
  | ok hws =>
    rw [hex] at h
    dsimp only at h
    split_ifs at h with h1 h2
    simp only [Except.ok.injEq] at h
    exact ⟨hws, rfl, h1, h2, h.symm⟩

theorem collectStep_ok_of (fixE asc : Str → Str) (m : List (Str × Entry))
    (e : Str) (hws : List Str)
    (hex : extract_headwords (fixE e) = Except.ok hws)
    (hne : hws ≠ [])
    (hok : ¬(asc (hws.headD []) = [] ∨ [] ∈ hws)) :
    collectStep fixE asc m e =
      Except.ok (updateA m (asc (hws.headD [])) hws (fixE e)) := by
  unfold collectStep
  rw [hex]
  dsimp only
  rw [if_neg hne, if_neg hok]

theorem collectRun_cons_inv (fixE asc : Str → Str) (m : List (Str × Entry))
    (e : Str) (rest : List Str) (out : List (Str × Entry))
    (h : collectRun fixE asc m (e :: rest) = Except.ok out) :
    ∃ m2, collectStep fixE asc m e = Except.ok m2 ∧
      collectRun fixE asc m2 rest = Except.ok out := by
  have h2 : (collectStep fixE asc m e).bind
      (fun m2 => collectRun fixE asc m2 rest) = Except.ok out := h
  exact exceptBind_ok_inv _ _ _ h2

theorem collectRun_nil_inv (fixE asc : Str → Str) (m out : List (Str × Entry))
    (h : collectRun fixE asc m [] = Except.ok out) : m = out := by
  simpa [collectRun] using h

theorem collectRun_append (fixE asc : Str → Str) (m : List (Str × Entry))
    (l1 l2 : List Str) :
    collectRun fixE asc m (l1 ++ l2) =
      (collectRun fixE asc m l1).bind
        (fun m2 => collectRun fixE asc m2 l2) := by
  induction l1 generalizing m with
  | nil => rfl
  | cons e es ih =>
    show (collectStep fixE asc m e).bind _ =
      ((collectStep fixE asc m e).bind _).bind _
    cases collectStep fixE asc m e with
    | error err => rfl
    | ok m2 => exact ih m2

theorem collectStep_mono (fixE asc : Str → Str) (m : List (Str × Entry))
    (e : Str) (m2 : List (Str × Entry)) (k : Str)
    (h : collectStep fixE asc m e = Except.ok m2) :
    (defnsOf m k).Sublist (defnsOf m2 k) ∧
      ∀ x ∈ hwsOf m k, x ∈ hwsOf m2 k := by
  obtain ⟨hws, hex, hne, hok, rfl⟩ := collectStep_ok_inv fixE asc m e m2 h
  by_cases hk : asc (hws.headD []) = k
  · subst hk
    unfold defnsOf hwsOf
    rw [lookupA_updateA_self]
    refine ⟨?_, fun x hx => ?_⟩
    · simp only [Option.getD_some]
      exact List.sublist_append_left _ _
    · simp only [Option.getD_some] at hx ⊢
      exact (hwUpdate_mem _ hws x).mpr (Or.inl hx)
  · unfold defnsOf hwsOf
    rw [lookupA_updateA_other _ _ _ _ _ (fun hh => hk hh.symm)]
    exact ⟨List.Sublist.refl _, fun x hx => hx⟩

theorem collectRun_mono (fixE asc : Str → Str) (ls : List Str)
    (m out : List (Str × Entry)) (k : Str)
    (h : collectRun fixE asc m ls = Except.ok out) :
    (defnsOf m k).Sublist (defnsOf out k) ∧
      ∀ x ∈ hwsOf m k, x ∈ hwsOf out k := by
  induction ls generalizing m with
  | nil =>
    obtain rfl := collectRun_nil_inv fixE asc m out h
    exact ⟨List.Sublist.refl _, fun x hx => hx⟩
  | cons e rest ih =>
    obtain ⟨m2, hstep, hrest⟩ := collectRun_cons_inv fixE asc m e rest out h
    obtain ⟨s1, w1⟩ := collectStep_mono fixE asc m e m2 k hstep
    obtain ⟨s2, w2⟩ := ih m2 hrest
    exact ⟨s1.trans s2, fun x hx => w2 x (w1 x hx)⟩

theorem collectRun_nodup_keys (fixE asc : Str → Str) (ls : List Str)
    (m out : List (Str × Entry)) (hm : (m.map Prod.fst).Nodup)
    (h : collectRun fixE asc m ls = Except.ok out) :
    (out.map Prod.fst).Nodup := by
  induction ls generalizing m with
  | nil =>
    obtain rfl := collectRun_nil_inv fixE asc m out h
    exact hm
  | cons e rest ih =>
    obtain ⟨m2, hstep, hrest⟩ := collectRun_cons_inv fixE asc m e rest out h
    obtain ⟨hws, hex, hne, hok, rfl⟩ := collectStep_ok_inv fixE asc m e m2 hstep
    exact ih _ (updateA_nodup_keys m _ hws _ hm) hrest

theorem collectRun_records_nodup (fixE asc : Str → Str) (ls : List Str)
    (m out : List (Str × Entry))
    (hm : ∀ p ∈ m, (Prod.snd p).headwords.Nodup)
    (h : collectRun fixE asc m ls = Except.ok out) :
    ∀ p ∈ out, (Prod.snd p).headwords.Nodup := by
  induction ls generalizing m with
  | nil =>
    obtain rfl := collectRun_nil_inv fixE asc m out h
    exact hm
  | cons e rest ih =>
    obtain ⟨m2, hstep, hrest⟩ := collectRun_cons_inv fixE asc m e rest out h
    obtain ⟨hws, hex, hne, hok, rfl⟩ := collectStep_ok_inv fixE asc m e m2 hstep
    exact ih _ (updateA_records_nodup m _ hws _ hm) hrest

theorem collectRun_nonempty (fixE asc : Str → Str) (ls : List Str)
    (m out : List (Str × Entry))
    (hm : ∀ p ∈ m, (Prod.fst p) ≠ [] ∧ ∀ x ∈ (Prod.snd p).headwords, x ≠ [])
    (h : collectRun fixE asc m ls = Except.ok out) :
    ∀ p ∈ out, (Prod.fst p) ≠ [] ∧ ∀ x ∈ (Prod.snd p).headwords, x ≠ [] := by
  induction ls generalizing m with
  | nil =>
    obtain rfl := collectRun_nil_inv fixE asc m out h
    exact hm
  | cons e rest ih =>
    obtain ⟨m2, hstep, hrest⟩ := collectRun_cons_inv fixE asc m e rest out h
    obtain ⟨hws, hex, hne, hok, rfl⟩ := collectStep_ok_inv fixE asc m e m2 hstep
    push_neg at hok
    refine ih _ (updateA_nonempty m _ hws _ hm hok.1 (fun x hx hxe => ?_)) hrest
    exact hok.2 (hxe ▸ hx)

/-! ### Claim C7 -/

/-- C7: when two entry blocks' first extracted headwords map to the same
canonical key under `ascify`, the completed `collect_entries` mapping has a
single record for that key (keys are duplicate-free) whose deduplicated
spelling set contains every headword extracted from both entries and whose
definition list contains both entity-normalized blocks in stream order. -/
theorem collect_entries_c7_groups (fixE asc : Str → Str)
    (A B C : List Str) (ei ej : Str) (out : List (Str × Entry))
    (hwsi hwsj : List Str) (k : Str)
    (hrun : collect_entries fixE asc (A ++ ei :: B ++ ej :: C) =
      Except.ok out)
    (hhi : extract_headwords (fixE ei) = Except.ok hwsi)
    (hhj : extract_headwords (fixE ej) = Except.ok hwsj)
    (hki : asc (hwsi.headD []) = k)
    (hkj : asc (hwsj.headD []) = k) :
    (out.map Prod.fst).Nodup ∧
    ∃ rec, lookupA out k = some rec ∧ rec.headwords.Nodup ∧
      (∀ x ∈ hwsi, x ∈ rec.headwords) ∧ (∀ x ∈ hwsj, x ∈ rec.headwords) ∧
      ([fixE ei] ++ [fixE ej]).Sublist rec.defns := by
  subst hki
  have hnodupKeys := collectRun_nodup_keys fixE asc
    (A ++ ei :: B ++ ej :: C) [] out (by simp) hrun
  have hrecsNodup := collectRun_records_nodup fixE asc
    (A ++ ei :: B ++ ej :: C) [] out (by simp) hrun
  unfold collect_entries at hrun
  rw [collectRun_append] at hrun
  obtain ⟨m3, hAB, hrest1⟩ := exceptBind_ok_inv _ _ _ hrun
  rw [collectRun_append] at hAB
  obtain ⟨mA, hA, hEiB⟩ := exceptBind_ok_inv _ _ _ hAB
  obtain ⟨m2, hstepi, hB⟩ := collectRun_cons_inv _ _ _ _ _ _ hEiB
  obtain ⟨hws1, hex1, hne1, hok1, hm2⟩ :=
    collectStep_ok_inv _ _ _ _ _ hstepi
  rw [hhi] at hex1
  injection hex1 with hex1
  subst hex1
  subst hm2
  obtain ⟨m4, hstepj, hC⟩ := collectRun_cons_inv _ _ _ _ _ _ hrest1
  obtain ⟨hws2, hex2, hne2, hok2, hm4⟩ :=
    collectStep_ok_inv _ _ _ _ _ hstepj
  rw [hhj] at hex2
  injection hex2 with hex2
  subst hex2
  subst hm4
  have hd2 : defnsOf (updateA mA (asc (hwsi.headD [])) hwsi (fixE ei))
      (asc (hwsi.headD [])) =
      defnsOf mA (asc (hwsi.headD [])) ++ [fixE ei] := by
    unfold defnsOf
    rw [lookupA_updateA_self]
    simp only [Option.getD_some]
  have hw2 : ∀ x ∈ hwsi, x ∈
      hwsOf (updateA mA (asc (hwsi.headD [])) hwsi (fixE ei))
        (asc (hwsi.headD [])) := by
    intro x hx
    unfold hwsOf
    rw [lookupA_updateA_self]
    simp only [Option.getD_some]
    exact (hwUpdate_mem _ _ x).mpr (Or.inr hx)
  obtain ⟨sB, wB⟩ := collectRun_mono fixE asc B _ m3
    (asc (hwsi.headD [])) hB
  have hd4 : defnsOf (updateA m3 (asc (hwsj.headD [])) hwsj (fixE ej))
      (asc (hwsi.headD [])) =
      defnsOf m3 (asc (hwsi.headD [])) ++ [fixE ej] := by
    rw [hkj]
    unfold defnsOf
    rw [lookupA_updateA_self]
    simp only [Option.getD_some]
  have hw4j : ∀ x ∈ hwsj, x ∈
      hwsOf (updateA m3 (asc (hwsj.headD [])) hwsj (fixE ej))
        (asc (hwsi.headD [])) := by
    intro x hx
    rw [hkj]
    unfold hwsOf
    rw [lookupA_updateA_self]
    simp only [Option.getD_some]
    exact (hwUpdate_mem _ _ x).mpr (Or.inr hx)
  have hw4i : ∀ x ∈ hwsOf m3 (asc (hwsi.headD [])), x ∈
      hwsOf (updateA m3 (asc (hwsj.headD [])) hwsj (fixE ej))
        (asc (hwsi.headD [])) := by
    intro x hx
    rw [hkj]
    unfold hwsOf at hx ⊢
    rw [lookupA_updateA_self]
    simp only [Option.getD_some]
    exact (hwUpdate_mem _ _ x).mpr (Or.inl hx)
  obtain ⟨sC, wC⟩ := collectRun_mono fixE asc C _ out
    (asc (hwsi.headD [])) hC
  have t1 : [fixE ei].Sublist (defnsOf m3 (asc (hwsi.headD []))) := by
    refine List.Sublist.trans ?_ sB
    rw [hd2]
    exact List.sublist_append_right _ _
  have t3 : ([fixE ei] ++ [fixE ej]).Sublist
      (defnsOf out (asc (hwsi.headD []))) := by
    refine List.Sublist.trans ?_ sC
    rw [hd4]
    exact List.Sublist.append t1 (List.Sublist.refl [fixE ej])
  cases hlook : lookupA out (asc (hwsi.headD [])) with
  | none =>
    exfalso
    have hnil : defnsOf out (asc (hwsi.headD [])) = [] := by
      unfold defnsOf
      rw [hlook]
      rfl
    rw [hnil] at t3
    simp at t3
  | some rec =>
    have hrecd : defnsOf out (asc (hwsi.headD [])) = rec.defns := by
      unfold defnsOf
      rw [hlook]
      rfl
    have hrech : hwsOf out (asc (hwsi.headD [])) = rec.headwords := by
      unfold hwsOf
      rw [hlook]
      rfl
    refine ⟨hnodupKeys, rec, rfl, ?_, ?_, ?_, ?_⟩
    · exact hrecsNodup _ (lookupA_mem out _ rec hlook)
    · intro x hx
      rw [← hrech]
      exact wC x (hw4i x (wB x (hw2 x hx)))
    · intro x hx
      rw [← hrech]
      exact wC x (hw4j x hx)
    · rw [← hrecd]
      exact t3

theorem collect_entries_c7_witness :
    (([("alpha".toList,
        (⟨["alpha".toList, "beta".toList],
          ["<B>alpha</B> one".toList, "<B>alpha, beta</B> two".toList]⟩ :
          Entry))].map Prod.fst).Nodup) ∧
    ∃ rec, lookupA [("alpha".toList,
        (⟨["alpha".toList, "beta".toList],
          ["<B>alpha</B> one".toList, "<B>alpha, beta</B> two".toList]⟩ :
          Entry))] "alpha".toList = some rec ∧ rec.headwords.Nodup ∧
      (∀ x ∈ ["alpha".toList], x ∈ rec.headwords) ∧
      (∀ x ∈ ["alpha".toList, "beta".toList], x ∈ rec.headwords) ∧
      (["<B>alpha</B> one".toList] ++
        ["<B>alpha, beta</B> two".toList]).Sublist rec.defns :=
  collect_entries_c7_groups id id [] [] [] "<B>alpha</B> one".toList
    "<B>alpha, beta</B> two".toList
    [("alpha".toList,
      ⟨["alpha".toList, "beta".toList],
        ["<B>alpha</B> one".toList, "<B>alpha, beta</B> two".toList]⟩)]
    ["alpha".toList] ["alpha".toList, "beta".toList] "alpha".toList
    (by decide) (by decide) (by decide) rfl rfl

/-! ### Claim C8 -/

/-- C8: for an entry whose extraction succeeds, `collect_entries` raises a
fatal error exactly when the ascified first extracted headword (the
canonical key) is empty or some extracted headword is empty — and in that
case nothing is added (the whole run yields no mapping at all).  In any
mapping `collect_entries` returns, no key and no headword spelling is the
empty string. -/
theorem collect_entries_c8_empty_normalization (fixE asc : Str → Str) :
    (∀ (m : List (Str × Entry)) (e : Str) (hws : List Str),
      extract_headwords (fixE e) = Except.ok hws → hws ≠ [] →
      ((∃ err, collectStep fixE asc m e = Except.error err) ↔
        (asc (hws.headD []) = [] ∨ [] ∈ hws))) ∧
    (∀ (es : List Str) (out : List (Str × Entry)),
      collect_entries fixE asc es = Except.ok out →
      ∀ p ∈ out, Prod.fst p ≠ [] ∧ ∀ x ∈ (Prod.snd p).headwords, x ≠ []) := by
  constructor
  · intro m e hws hex hne
    unfold collectStep
    rw [hex]
    dsimp only
    rw [if_neg hne]
    by_cases hcond : asc (hws.headD []) = [] ∨ [] ∈ hws
    · rw [if_pos hcond]
      exact ⟨fun _ => hcond, fun _ => ⟨_, rfl⟩⟩
    · rw [if_neg hcond]
      constructor
      · rintro ⟨err, herr⟩
        exact Except.noConfusion herr
      · intro hc
        exact absurd hc hcond
  · intro es out hrun
    exact collectRun_nonempty fixE asc es [] out (by simp) hrun

theorem collect_entries_c8_witness :
    (∃ err, collectStep id (fun _ => ([] : Str)) []
      "<B>word</B> x".toList = Except.error err) ∧
    ("word".toList ≠ [] ∧
      ∀ x ∈ (⟨["word".toList], ["<B>word</B> x".toList]⟩ : Entry).headwords,
        x ≠ []) :=
  ⟨((collect_entries_c8_empty_normalization id (fun _ => [])).1 []
      "<B>word</B> x".toList ["word".toList] (by decide) (by decide)).mpr
      (Or.inl rfl),
   (collect_entries_c8_empty_normalization id id).2
      ["<B>word</B> x".toList]
      [("word".toList, ⟨["word".toList], ["<B>word</B> x".toList]⟩)]
      (by decide)
      ("word".toList, ⟨["word".toList], ["<B>word</B> x".toList]⟩)
      (by simp)⟩
